import Mathlib

/-!
Verification development for the console autocomplete metadata cache
(`src/plugins/console/public/lib/mappings/mappings.js`).

The module keeps three process-wide structures (`perIndexTypes`,
`perAliasIndices`, `templates`), normalizes cluster mapping/alias/template
payloads into them, and answers lookups (`getFields`, `getTypes`,
`getIndices`) after resolving aliases (`expandAliases`).  A poller
(`retrieveAutoCompleteInfo`) refreshes the structures and reschedules itself.

The embedding below models JavaScript objects as association lists of own
enumerable properties in insertion order (prototype-chain lookups and the
integer-key reordering of JS enumeration are outside the model), JS
`undefined | string | string[]` unions as the `JSVal` inductive, and the
module state as an explicit `Store` record threaded through the operations.
-/

/-- Descriptor produced by the normalizer: `{ name, type }` where `type` may
be absent (JS `undefined`).  `type` is a Lean keyword, hence `ftype`. -/
structure FieldDesc where
  name : String
  ftype : Option String
deriving DecidableEq, Repr

/-- The lodash `uniqBy` key used throughout the source:
`f.name + ':' + f.type`.  JS string concatenation renders `undefined` as
the text `"undefined"`. -/
def fieldKey (f : FieldDesc) : String :=
  f.name ++ ":" ++ (match f.ftype with | some t => t | none => "undefined")

/-- A JS value that is `undefined`, a string, or an array of strings —
the union `expandAliases` and the lookup arguments range over. -/
inductive JSVal : Type where
  | undef : JSVal
  | str : String → JSVal
  | arr : List String → JSVal
deriving DecidableEq, Repr

/-- JS default `Array.prototype.sort` comparator on strings: lexicographic
comparison of the code-unit sequences.  We compare the character lists of
the two strings; this is kernel-computable, unlike `String.ltb`. -/
def strLtChars : List Char → List Char → Bool
  | [], [] => false
  | [], _ :: _ => true
  | _ :: _, [] => false
  | a :: as, b :: bs =>
    if a.toNat < b.toNat then true
    else if b.toNat < a.toNat then false
    else strLtChars as bs

/-- Non-strict string order used to model the JS sort. -/
def jsLe (a b : String) : Prop := strLtChars b.data a.data = false

instance : DecidableRel jsLe := fun a b =>
  inferInstanceAs (Decidable (strLtChars b.data a.data = false))

theorem strLtChars_cons (a b : Char) (as bs : List Char) :
    strLtChars (a :: as) (b :: bs) =
      (if a.toNat < b.toNat then true else if b.toNat < a.toNat then false
        else strLtChars as bs) := rfl

theorem strLtChars_not_both : ∀ as bs, strLtChars as bs = false ∨ strLtChars bs as = false := by
  intro as
  induction as with
  | nil => intro bs; cases bs <;> simp [strLtChars]
  | cons a as ih =>
    intro bs
    cases bs with
    | nil => simp [strLtChars]
    | cons b bs =>
      rw [strLtChars_cons, strLtChars_cons]
      by_cases hab : a.toNat < b.toNat
      · right
        rw [if_neg (by omega), if_pos hab]
      · by_cases hba : b.toNat < a.toNat
        · left
          rw [if_neg hab, if_pos hba]
        · rw [if_neg hab, if_neg hba, if_neg hba, if_neg hab]
          exact ih bs

theorem strLtChars_trans : ∀ as bs cs, strLtChars as bs = true → strLtChars bs cs = true →
    strLtChars as cs = true := by
  intro as
  induction as with
  | nil =>
    intro bs cs h1 h2
    cases bs with
    | nil => exact h2
    | cons b bs => cases cs with
      | nil => simp [strLtChars] at h2
      | cons c cs => simp [strLtChars]
  | cons a as ih =>
    intro bs cs h1 h2
    cases bs with
    | nil => simp [strLtChars] at h1
    | cons b bs =>
      cases cs with
      | nil => simp [strLtChars] at h2
      | cons c cs =>
        rw [strLtChars_cons] at h1 h2 ⊢
        by_cases hab : a.toNat < b.toNat
        · rw [if_pos hab] at h1
          by_cases hbc : b.toNat < c.toNat
          · rw [if_pos (by omega : a.toNat < c.toNat)]
          · rw [if_neg hbc] at h2
            by_cases hcb : c.toNat < b.toNat
            · rw [if_pos hcb] at h2; exact absurd h2 (by simp)
            · rw [if_pos (by omega : a.toNat < c.toNat)]
        · rw [if_neg hab] at h1
          by_cases hba : b.toNat < a.toNat
          · rw [if_pos hba] at h1; exact absurd h1 (by simp)
          · rw [if_neg hba] at h1
            by_cases hbc : b.toNat < c.toNat
            · rw [if_pos (by omega : a.toNat < c.toNat)]
            · rw [if_neg hbc] at h2
              by_cases hcb : c.toNat < b.toNat
              · rw [if_pos hcb] at h2; exact absurd h2 (by simp)
              · rw [if_neg (by omega : ¬ a.toNat < c.toNat),
                  if_neg (by omega : ¬ c.toNat < a.toNat)]
                rw [if_neg hcb] at h2
                exact ih bs cs h1 h2

theorem strLtChars_conn : ∀ as bs, strLtChars as bs = false → strLtChars bs as = false →
    as = bs := by
  intro as
  induction as with
  | nil => intro bs h1 _; cases bs with
    | nil => rfl
    | cons b bs => simp [strLtChars] at h1
  | cons a as ih =>
    intro bs h1 h2
    cases bs with
    | nil => simp [strLtChars] at h2
    | cons b bs =>
      rw [strLtChars_cons] at h1 h2
      by_cases hab : a.toNat < b.toNat
      · rw [if_pos hab] at h1; exact absurd h1 (by simp)
      · by_cases hba : b.toNat < a.toNat
        · rw [if_pos hba] at h2; exact absurd h2 (by simp)
        · rw [if_neg hab, if_neg hba] at h1
          rw [if_neg hba, if_neg hab] at h2
          have hab' : a.toNat = b.toNat := by omega
          have ha : a = b := by
            have := congrArg Char.ofNat hab'
            simpa [Char.ofNat_toNat] using this
          exact ha ▸ congrArg (a :: ·) (ih bs h1 h2)

theorem jsLe_antisymm {a b : String} (h1 : jsLe a b) (h2 : jsLe b a) : a = b := by
  cases a with
  | mk da => cases b with
    | mk db =>
      simp only [jsLe] at h1 h2
      exact congrArg String.mk (strLtChars_conn da db h2 h1)

instance : IsTotal String jsLe :=
  ⟨fun a b => by
    rcases strLtChars_not_both b.data a.data with h | h
    · exact Or.inl h
    · exact Or.inr h⟩

instance : IsTrans String jsLe :=
  ⟨fun a b c hab hbc => by
    simp only [jsLe] at hab hbc ⊢
    by_contra hca
    have hca' : strLtChars c.data a.data = true := by
      cases h : strLtChars c.data a.data
      · exact absurd h hca
      · rfl
    by_cases hab' : strLtChars a.data b.data = true
    · have := strLtChars_trans _ _ _ hca' hab'
      simp [this] at hbc
    · have hab'' : strLtChars a.data b.data = false := by
        cases h : strLtChars a.data b.data
        · rfl
        · exact absurd h hab'
      have : a.data = b.data := strLtChars_conn _ _ hab'' hab
      rw [this] at hca'
      simp [hca'] at hbc⟩

/-! ### JS objects as association lists -/

/-- Own-property lookup on a JS object modelled as an association list
(first matching key wins; JS objects have unique keys). -/
def lookupKey : List (String × α) → String → Option α
  | [], _ => none
  | (k, v) :: rest, key => if k = key then some v else lookupKey rest key

/-- JS property assignment `o[key] = v`: overwrite in place when the key is
present (JS keeps the original insertion position), append otherwise. -/
def setKey : List (String × α) → String → α → List (String × α)
  | [], key, v => [(key, v)]
  | (k, w) :: rest, key, v =>
    if k = key then (key, v) :: rest else (k, w) :: setKey rest key v

theorem lookupKey_setKey_self (m : List (String × α)) (key : String) (v : α) :
    lookupKey (setKey m key v) key = some v := by
  induction m with
  | nil => simp [setKey, lookupKey]
  | cons kv rest ih =>
    obtain ⟨k, w⟩ := kv
    by_cases h : k = key
    · simp [setKey, h, lookupKey]
    · simp [setKey, h, lookupKey, ih]

theorem lookupKey_setKey_ne (m : List (String × α)) (key k' : String) (v : α)
    (h : k' ≠ key) : lookupKey (setKey m key v) k' = lookupKey m k' := by
  induction m with
  | nil => simp [setKey, lookupKey, Ne.symm h]
  | cons kv rest ih =>
    obtain ⟨k, w⟩ := kv
    by_cases hk : k = key
    · subst hk
      simp [setKey, lookupKey, Ne.symm h]
    · simp only [setKey, if_neg hk, lookupKey]
      by_cases hk' : k = k'
      · rw [if_pos hk', if_pos hk']
      · rw [if_neg hk', if_neg hk']
        exact ih

theorem lookupKey_append_right (m m' : List (String × α)) (key : String)
    (h : lookupKey m key = none) : lookupKey (m ++ m') key = lookupKey m' key := by
  induction m with
  | nil => simp
  | cons kv rest ih =>
    obtain ⟨k, w⟩ := kv
    by_cases hk : k = key
    · simp [lookupKey, hk] at h
    · simp [lookupKey, hk] at h ⊢
      exact ih h

theorem lookupKey_append_left (m m' : List (String × α)) (key : String) (v : α)
    (h : lookupKey m key = some v) : lookupKey (m ++ m') key = some v := by
  induction m with
  | nil => simp [lookupKey] at h
  | cons kv rest ih =>
    obtain ⟨k, w⟩ := kv
    by_cases hk : k = key
    · simp [lookupKey, hk] at h ⊢
      exact h
    · simp [lookupKey, hk] at h ⊢
      exact ih h

theorem lookupKey_of_mem_nodup (m : List (String × α)) (k : String) (v : α)
    (hmem : (k, v) ∈ m) (hnd : (m.map Prod.fst).Nodup) : lookupKey m k = some v := by
  induction m with
  | nil => simp at hmem
  | cons kv rest ih =>
    obtain ⟨k', w⟩ := kv
    simp only [List.map_cons, List.nodup_cons] at hnd
    rcases List.mem_cons.mp hmem with h | h
    · obtain ⟨h1, h2⟩ := Prod.mk.injEq .. ▸ h
      simp [lookupKey, h1.symm, h2]
    · have hne : k' ≠ k := by
        intro e
        exact hnd.1 (e ▸ (List.mem_map.mpr ⟨(k, v), h, rfl⟩))
      simp [lookupKey, hne]
      exact ih h hnd.2

/-! ### lodash `uniqBy` / `uniq` -/

/-- lodash `_.uniqBy(l, key)`: keep an element when its key was not seen
before (first occurrence wins, order preserved).  `seen` is the accumulator
of keys already kept. -/
def uniqByKey (key : α → String) : List α → List String → List α
  | [], _ => []
  | x :: xs, seen =>
    if key x ∈ seen then uniqByKey key xs seen
    else x :: uniqByKey key xs (key x :: seen)

theorem uniqByKey_sublist (key : α → String) :
    ∀ (l : List α) (seen : List String), (uniqByKey key l seen).Sublist l := by
  intro l
  induction l with
  | nil => intro seen; simp [uniqByKey]
  | cons x xs ih =>
    intro seen
    by_cases h : key x ∈ seen
    · simp only [uniqByKey, if_pos h]
      exact (ih seen).cons x
    · simp only [uniqByKey, if_neg h]
      exact (ih (key x :: seen)).cons₂ x

theorem uniqByKey_key_not_seen (key : α → String) :
    ∀ (l : List α) (seen : List String) (g : α), g ∈ uniqByKey key l seen → key g ∉ seen := by
  intro l
  induction l with
  | nil => intro seen g hg; simp [uniqByKey] at hg
  | cons x xs ih =>
    intro seen g hg
    by_cases h : key x ∈ seen
    · rw [uniqByKey, if_pos h] at hg
      exact ih seen g hg
    · rw [uniqByKey, if_neg h] at hg
      rcases List.mem_cons.mp hg with h' | h'
      · exact h' ▸ h
      · intro hs
        exact ih (key x :: seen) g h' (List.mem_cons_of_mem _ hs)

theorem uniqByKey_keys_nodup (key : α → String) :
    ∀ (l : List α) (seen : List String), ((uniqByKey key l seen).map key).Nodup := by
  intro l
  induction l with
  | nil => intro seen; simp [uniqByKey]
  | cons x xs ih =>
    intro seen
    by_cases h : key x ∈ seen
    · rw [uniqByKey, if_pos h]
      exact ih seen
    · rw [uniqByKey, if_neg h]
      simp only [List.map_cons, List.nodup_cons]
      refine ⟨fun hmem => ?_, ih (key x :: seen)⟩
      obtain ⟨g, hg, hkg⟩ := List.mem_map.mp hmem
      exact uniqByKey_key_not_seen key xs (key x :: seen) g hg (hkg ▸ List.mem_cons_self _ _)

theorem uniqByKey_covers (key : α → String) :
    ∀ (l : List α) (seen : List String) (f : α), f ∈ l → key f ∉ seen →
      ∃ g ∈ uniqByKey key l seen, key g = key f := by
  intro l
  induction l with
  | nil => intro seen f hf; simp at hf
  | cons x xs ih =>
    intro seen f hf hseen
    rcases List.mem_cons.mp hf with h | h
    · subst h
      by_cases hx : key f ∈ seen
      · exact absurd hx hseen
      · exact ⟨f, by rw [uniqByKey, if_neg hx]; exact List.mem_cons_self _ _, rfl⟩
    · by_cases hx : key x ∈ seen
      · rw [uniqByKey, if_pos hx]
        exact ih seen f h hseen
      · rw [uniqByKey, if_neg hx]
        by_cases hfx : key f = key x
        · exact ⟨x, List.mem_cons_self _ _, hfx.symm⟩
        · obtain ⟨g, hg, hkey⟩ := ih (key x :: seen) f h
            (by simp [hfx, hseen])
          exact ⟨g, List.mem_cons_of_mem _ hg, hkey⟩

theorem uniqByKey_first (key : α → String) :
    ∀ (l : List α) (seen : List String) (g : α), g ∈ uniqByKey key l seen →
      (l.filter (fun f => key f = key g)).head? = some g := by
  intro l
  induction l with
  | nil => intro seen g hg; simp [uniqByKey] at hg
  | cons x xs ih =>
    intro seen g hg
    by_cases hx : key x ∈ seen
    · rw [uniqByKey, if_pos hx] at hg
      have hne : key x ≠ key g := by
        intro e
        exact uniqByKey_key_not_seen key xs seen g hg (e ▸ hx)
      rw [List.filter_cons, if_neg (by simpa using hne)]
      exact ih seen g hg
    · rw [uniqByKey, if_neg hx] at hg
      rcases List.mem_cons.mp hg with h | h
      · subst h
        rw [List.filter_cons, if_pos (by simp)]
        rfl
      · have hne : key x ≠ key g := by
          intro e
          exact uniqByKey_key_not_seen key xs (key x :: seen) g h (e ▸ List.mem_cons_self _ _)
        rw [List.filter_cons, if_neg (by simpa using hne)]
        exact ih (key x :: seen) g h

/-! ### `expandAliases` (source lines 43-72) -/

/-- Inner loop of the `reduce` at mappings.js:63-69.  `prev` is the previous
element of the (already sorted) array; a value equal to it is dropped. -/
def dedupAdjacentGo (prev : String) : List String → List String
  | [] => []
  | y :: ys => if y = prev then dedupAdjacentGo prev ys else y :: dedupAdjacentGo y ys

/-- The `reduce` at mappings.js:63-69: keep each element that differs from
the element before it in the array (adjacent dedup; full dedup after sort). -/
def dedupAdjacent : List String → List String
  | [] => []
  | x :: xs => x :: dedupAdjacentGo x xs

theorem dedupAdjacentGo_sublist : ∀ (l : List String) (prev : String),
    (dedupAdjacentGo prev l).Sublist l := by
  intro l
  induction l with
  | nil => intro prev; simp [dedupAdjacentGo]
  | cons y ys ih =>
    intro prev
    by_cases h : y = prev
    · rw [dedupAdjacentGo, if_pos h]
      exact (ih prev).cons y
    · rw [dedupAdjacentGo, if_neg h]
      exact (ih y).cons₂ y

theorem dedupAdjacent_sublist (l : List String) : (dedupAdjacent l).Sublist l := by
  cases l with
  | nil => simp [dedupAdjacent]
  | cons x xs =>
    rw [dedupAdjacent]
    exact (dedupAdjacentGo_sublist xs x).cons₂ x

theorem dedupAdjacentGo_eq_self : ∀ (l : List String) (prev : String),
    List.Chain' (· ≠ ·) (prev :: l) → dedupAdjacentGo prev l = l := by
  intro l
  induction l with
  | nil => intro prev _; rfl
  | cons y ys ih =>
    intro prev hch
    rw [List.chain'_cons] at hch
    rw [dedupAdjacentGo, if_neg (Ne.symm hch.1)]
    exact congrArg (y :: ·) (ih y hch.2)

theorem dedupAdjacent_eq_self (l : List String) (h : l.Nodup) : dedupAdjacent l = l := by
  cases l with
  | nil => rfl
  | cons x xs =>
    rw [dedupAdjacent]
    exact congrArg (x :: ·) (dedupAdjacentGo_eq_self xs x h.chain')

theorem dedupAdjacentGo_nodup : ∀ (l : List String) (prev : String),
    List.Sorted jsLe (prev :: l) →
      (dedupAdjacentGo prev l).Nodup ∧ ∀ x ∈ dedupAdjacentGo prev l, x ≠ prev := by
  intro l
  induction l with
  | nil => intro prev _; exact ⟨List.nodup_nil, by simp [dedupAdjacentGo]⟩
  | cons y ys ih =>
    intro prev hs
    rw [List.sorted_cons] at hs
    by_cases h : y = prev
    · rw [dedupAdjacentGo, if_pos h]
      have hs' : List.Sorted jsLe (prev :: ys) := by
        rw [List.sorted_cons]
        rw [List.sorted_cons] at hs
        exact ⟨fun b hb => hs.1 b (List.mem_cons_of_mem _ hb), hs.2.2⟩
      exact ih prev hs'
    · rw [dedupAdjacentGo, if_neg h]
      obtain ⟨hnd, hne⟩ := ih y hs.2
      refine ⟨List.nodup_cons.mpr ⟨fun hmem => (hne y hmem) rfl, hnd⟩, ?_⟩
      intro x hx
      rcases List.mem_cons.mp hx with h' | h'
      · exact h' ▸ h
      · intro hxp
        have hyx : jsLe y x := by
          rw [List.sorted_cons] at hs
          exact hs.2.1 x ((dedupAdjacentGo_sublist ys y).subset h')
        have hpy : jsLe prev y := hs.1 y (List.mem_cons_self _ _)
        exact h (jsLe_antisymm (show jsLe y prev from hxp ▸ hyx) hpy)

theorem dedupAdjacent_nodup (l : List String) (h : List.Sorted jsLe l) :
    (dedupAdjacent l).Nodup := by
  cases l with
  | nil => simp [dedupAdjacent]
  | cons x xs =>
    rw [dedupAdjacent]
    obtain ⟨hnd, hne⟩ := dedupAdjacentGo_nodup xs x h
    exact List.nodup_cons.mpr ⟨fun hmem => (hne x hmem) rfl, hnd⟩

theorem mem_dedupAdjacentGo : ∀ (l : List String) (prev : String),
    List.Sorted jsLe (prev :: l) → ∀ a ∈ l, a = prev ∨ a ∈ dedupAdjacentGo prev l := by
  intro l
  induction l with
  | nil => intro prev _ a ha; simp at ha
  | cons y ys ih =>
    intro prev hs a ha
    by_cases h : y = prev
    · rw [dedupAdjacentGo, if_pos h]
      have hs' : List.Sorted jsLe (prev :: ys) := by
        rw [List.sorted_cons] at hs ⊢
        exact ⟨fun b hb => hs.1 b (List.mem_cons_of_mem _ hb), (List.sorted_cons.mp hs.2).2⟩
      rcases List.mem_cons.mp ha with h' | h'
      · exact Or.inl (h' ▸ h)
      · exact ih prev hs' a h'
    · rw [dedupAdjacentGo, if_neg h]
      rcases List.mem_cons.mp ha with h' | h'
      · exact Or.inr (h' ▸ List.mem_cons_self _ _)
      · rw [List.sorted_cons] at hs
        rcases ih y hs.2 a h' with h'' | h''
        · exact Or.inr (h'' ▸ List.mem_cons_self _ _)
        · exact Or.inr (List.mem_cons_of_mem _ h'')

theorem mem_dedupAdjacent (l : List String) (h : List.Sorted jsLe l) (a : String) :
    a ∈ dedupAdjacent l ↔ a ∈ l := by
  constructor
  · exact fun ha => (dedupAdjacent_sublist l).subset ha
  · intro ha
    cases l with
    | nil => simp at ha
    | cons x xs =>
      rw [dedupAdjacent]
      rcases List.mem_cons.mp ha with h' | h'
      · exact h' ▸ List.mem_cons_self _ _
      · rcases mem_dedupAdjacentGo xs x h a h' with h'' | h''
        · exact h'' ▸ List.mem_cons_self _ _
        · exact List.mem_cons_of_mem _ h''

/-- Alias substitution for one entry (mappings.js:55-60): a name that is a
key of `perAliasIndices` (any array property is truthy, even an empty one)
is replaced by its index list, anything else kept as a singleton. -/
def substOne (perAliasIndices : List (String × List String)) (iOrA : String) : List String :=
  match lookupKey perAliasIndices iOrA with
  | some l => l
  | none => [iOrA]

/-- The list pipeline of `expandAliases` on a wrapped, non-falsy input:
substitute (mappings.js:55-60), flatten (61), sort (62), drop adjacent
duplicates (63-69). -/
def expandedList (perAliasIndices : List (String × List String)) (xs : List String) :
    List String :=
  dedupAdjacent (List.insertionSort jsLe ((xs.map (substOne perAliasIndices)).flatten))

/-- `ret.length > 1 ? ret : ret[0]` (mappings.js:71): `ret[0]` of an empty
array is `undefined`. -/
def collapseResult : List String → JSVal
  | [] => .undef
  | [x] => .str x
  | l => .arr l

/-- mappings.js:43-72.  A falsy input (`undefined` or the empty string) is
returned unchanged; a string is wrapped into a one-element array; then the
substitute/flatten/sort/dedup pipeline runs and the result is collapsed. -/
def expandAliases (perAliasIndices : List (String × List String)) : JSVal → JSVal
  | .undef => .undef
  | .str s => if s = "" then .str "" else collapseResult (expandedList perAliasIndices [s])
  | .arr xs => collapseResult (expandedList perAliasIndices xs)

/-! ### Field/type normalizer (source lines 163-215) -/

/-- A raw field-mapping descriptor (mappings.js field-mapping JSON):
`enabled`, `path`, `type`, `index_name`, nested `properties`, multi-field
`fields`.  Constructor argument order follows that listing. -/
inductive FieldMapping : Type where
  | mk : Option Bool → Option String → Option String → Option String →
      Option (List (String × FieldMapping)) → Option (List (String × FieldMapping)) →
      FieldMapping

/-- `applyPathSettings` (mappings.js:169-178): `fieldMapping.path || 'full'`
treats an absent or empty-string `path` as `"full"`; under `"full"` every
nested name is prefixed with `fieldName + "."`, otherwise the nested list is
returned untouched. -/
def applyPathSettings (path : Option String) (fieldName : String)
    (nestedFieldNames : List FieldDesc) : List FieldDesc :=
  let pathType := match path with
    | some p => if p = "" then "full" else p
    | none => "full"
  if pathType = "full" then
    nestedFieldNames.map (fun f => { f with name := fieldName ++ "." ++ f.name })
  else nestedFieldNames

mutual

/-- `getFieldNamesFromFieldMapping` (mappings.js:163-204).  `enabled ===
false` excludes the subtree; a `properties` object recurses (through the
deduplicating `getFieldNamesFromProperties`, inlined here as `uniqByKey` for
termination) and applies the path policy; otherwise the base descriptor is
built (`index_name`, when present and non-empty, overrides the name — JS
tests it for truthiness) and any multi-`fields` contributions (raw flatMap,
no dedup at this level) are appended after it. -/
def getFieldNamesFromFieldMapping (fieldName : String) (fm : FieldMapping) : List FieldDesc :=
  match fm with
  | .mk enabled path ftype indexName properties flds =>
    if enabled = some false then []
    else
      match properties with
      | some props =>
        applyPathSettings path fieldName (uniqByKey fieldKey (fieldListOfProperties props) [])
      | none =>
        let ret : FieldDesc :=
          { name := match indexName with
              | some i => if i = "" then fieldName else i
              | none => fieldName,
            ftype := ftype }
        match flds with
        | some fs => ret :: applyPathSettings path fieldName (fieldListOfProperties fs)
        | none => [ret]

/-- `Object.entries(properties).flatMap(...)` (mappings.js:207-209): the
pre-dedup flattened contribution list of a properties object. -/
def fieldListOfProperties : List (String × FieldMapping) → List FieldDesc
  | [] => []
  | (n, fm) :: rest => getFieldNamesFromFieldMapping n fm ++ fieldListOfProperties rest

end

/-- `getFieldNamesFromProperties` (mappings.js:206-215): flatten all fields'
contributions, then `_.uniqBy` on `f.name + ':' + f.type`. -/
def getFieldNamesFromProperties (properties : List (String × FieldMapping)) : List FieldDesc :=
  uniqByKey fieldKey (fieldListOfProperties properties) []

/-! ### The metadata store and the lookup functions -/

/-- A normalized per-index type map: type name → field descriptor list.
`loadMappings`/`loadAliases` only ever store plain objects here, so the
legacy `Array.isArray(typeDict)` branch of `getTypes` (mappings.js:127-130)
is unreachable for states produced by this module and is not represented. -/
abbrev TypeDict := List (String × List FieldDesc)

/-- The module-level mutable state (mappings.js:39-41). -/
structure Store where
  perIndexTypes : List (String × TypeDict)
  perAliasIndices : List (String × List String)
  templates : List String
deriving DecidableEq, Repr

/-- `getIndices` (mappings.js:149-161): all index keys, plus all alias keys
when `includeAliases` is `true` or `undefined` (the `typeof ... ===
'undefined' ? true : includeAliases` default). -/
def getIndices (st : Store) (includeAliases : Option Bool) : List String :=
  match includeAliases with
  | none => st.perIndexTypes.map Prod.fst ++ st.perAliasIndices.map Prod.fst
  | some true => st.perIndexTypes.map Prod.fst ++ st.perAliasIndices.map Prod.fst
  | some false => st.perIndexTypes.map Prod.fst

/-- `getTemplates` (mappings.js:74-76) returns a copy of the template list
(identity in a pure model). -/
def getTemplates (st : Store) : List String := st.templates

/-- The type filter of `getFields`'s non-string branch (mappings.js:95):
`!types || types.length === 0 || types.includes(type)`.  The string case is
unreachable there (the caller took the `typeof types === 'string'` branch). -/
def typeIncluded : JSVal → String → Bool
  | .undef, _ => true
  | .arr l, t => l.isEmpty || l.contains t
  | .str _, _ => true

/-- The single-index part of `getFields` (mappings.js:89-101), before the
final dedup: for a string `types` the type's own list (an existing empty
array is truthy, so `f ? f : []` keeps it); otherwise the concatenation of
the lists of all included types. -/
def typeDictFields (td : TypeDict) (types : JSVal) : List FieldDesc :=
  match types with
  | .str t => (lookupKey td t).getD []
  | types =>
    ((td.filter (fun kv => typeIncluded types kv.1)).map Prod.snd).flatten

/-- The index filter of `getFields`'s multi-index branch (mappings.js:105):
`!indices || indices.length === 0 || indices.includes(index)`. -/
def indexIncluded : JSVal → String → Bool
  | .undef, _ => true
  | .arr l, k => l.isEmpty || l.contains k
  | .str _, _ => true

/-- `getFields` (mappings.js:78-115).  The recursive multi-index call
re-expands each index name through `expandAliases`, which can itself yield a
list again (an index name that is also an alias), so the JS recursion is not
structurally bounded; `fuel` makes that partiality explicit (each nesting
level consumes one unit, exactly mirroring one JS stack frame). -/
def getFields : Nat → Store → JSVal → JSVal → List FieldDesc
  | 0, _, _, _ => []
  | fuel + 1, st, indices, types =>
    let ret :=
      match expandAliases st.perAliasIndices indices with
      | .str s =>
        match lookupKey st.perIndexTypes s with
        | none => []
        | some td => typeDictFields td types
      | ind =>
        (st.perIndexTypes.filterMap (fun kv =>
          if indexIncluded ind kv.1 then some (getFields fuel st (.str kv.1) types)
          else none)).flatten
    uniqByKey fieldKey ret []

/-- The index filter of `getTypes`'s multi-index branch (mappings.js:139):
`!indices || indices.includes(index)` — unlike `getFields`, there is no
`length === 0` escape here. -/
def typesMultiIncluded : JSVal → String → Bool
  | .undef, _ => true
  | .arr l, k => l.contains k
  | .str _, _ => true

/-- `getTypes` (mappings.js:117-147), with the same fuel discipline as
`getFields`.  The final `_.uniq` is value-identity dedup keeping first
occurrences. -/
def getTypes : Nat → Store → JSVal → List String
  | 0, _, _ => []
  | fuel + 1, st, indices =>
    let ret :=
      match expandAliases st.perAliasIndices indices with
      | .str s =>
        match lookupKey st.perIndexTypes s with
        | none => []
        | some td => td.map Prod.fst
      | ind =>
        (st.perIndexTypes.filterMap (fun kv =>
          if typesMultiIncluded ind kv.1 then some (getTypes fuel st (.str kv.1))
          else none)).flatten
    uniqByKey (fun s => s) ret []

/-! ### Store mutators (source lines 217-270) -/

/-- A value sitting under a top-level key of an index mapping: a
`properties` object, a nested index mapping (the payload of the legacy
`{ mappings: ... }` wrapper), or any other JSON value, which the loader
ignores.  The model types the value under a `"properties"` key as a
properties object — the shape the server returns per the payload contract —
so a `"properties"` key with a non-properties value normalizes to `[]`. -/
inductive TypeVal : Type where
  | props : List (String × FieldMapping) → TypeVal
  | imap : List (String × TypeVal) → TypeVal
  | other : TypeVal

/-- mappings.js:232-239: under the key `"properties"` run the normalizer,
under any other key store the empty list (legacy multi-type passthrough). -/
def normalizeTypeVal (typeName : String) (tv : TypeVal) : List FieldDesc :=
  if typeName = "properties" then
    match tv with
    | .props p => getFieldNamesFromProperties p
    | _ => []
  else []

/-- The 1.0.0-migration unwrap (mappings.js:228-230): when the index mapping
has exactly one key, named `mappings`, holding an object (truthy), that
object becomes the index mapping. -/
def unwrapIndexMapping : List (String × TypeVal) → List (String × TypeVal)
  | [(k, TypeVal.imap inner)] =>
    if k = "mappings" then inner else [(k, TypeVal.imap inner)]
  | im => im

/-- One index's normalized type map (mappings.js:224-240). -/
def normalizeIndexMapping (im : List (String × TypeVal)) : TypeDict :=
  (unwrapIndexMapping im).foldl (fun acc kv => setKey acc kv.1 (normalizeTypeVal kv.1 kv.2)) []

/-- The argument `loadMappings` receives: normally an object, but the
oversized-payload branch of `retrieveMappings` passes the two-character
string `'\x7b\x7d'` (mappings.js:326), so a string argument must be
representable. -/
inductive MappingsArg : Type where
  | obj : List (String × List (String × TypeVal)) → MappingsArg
  | jstr : String → MappingsArg

/-- `Object.keys(mappings).length`: key count of an object; for a string,
`Object.keys` yields its character indices, so the length of the string. -/
def mappingsKeyCount : MappingsArg → Nat
  | .obj entries => entries.length
  | .jstr s => s.length

/-- `loadMappings` (mappings.js:221-242).  `perIndexTypes` is rebuilt from
scratch.  For a string argument, `Object.entries` enumerates
`(index, single-character string)` pairs; each single-character string's own
entries are `[("0", char)]` and `"0" ≠ "properties"`, so every character
contributes the type map `{"0": []}` under its decimal index key. -/
def loadMappings (st : Store) : MappingsArg → Store
  | .obj entries =>
    { st with perIndexTypes :=
        entries.foldl (fun acc kv => setKey acc kv.1 (normalizeIndexMapping kv.2)) [] }
  | .jstr s =>
    { st with perIndexTypes :=
        (List.range s.length).map (fun i => (toString i, [("0", [])])) }

/-- `loadTemplates` (mappings.js:217-219): keep only the key names. -/
def loadTemplates (st : Store) (templatesObject : List (String × Unit)) : Store :=
  { st with templates := templatesObject.map Prod.fst }

/-- `perIndexTypes[index] = perIndexTypes[index] || {}` (mappings.js:248). -/
def ensureIndexEntry (pit : List (String × TypeDict)) (index : String) :
    List (String × TypeDict) :=
  match lookupKey pit index with
  | some _ => pit
  | none => pit ++ [(index, [])]

/-- Recording one alias of one index (mappings.js:250-260): an alias equal
to its index is skipped; otherwise the index is appended to the alias's
list, creating the entry on first use. -/
def pushAliasEntry (pai : List (String × List String)) (aliasName index : String) :
    List (String × List String) :=
  if aliasName = index then pai
  else
    match lookupKey pai aliasName with
    | some cur => setKey pai aliasName (cur ++ [index])
    | none => pai ++ [(aliasName, [index])]

/-- Processing of one `(index, {aliases})` entry of the aliases payload.
The `aliases` property may be absent (`omdexAliases.aliases || {}`), hence
`Option`; the model keeps just the alias-name key list of that object. -/
def loadAliasesStep (acc : Store) (kv : String × Option (List String)) : Store :=
  { acc with
    perIndexTypes := ensureIndexEntry acc.perIndexTypes kv.1,
    perAliasIndices :=
      (kv.2.getD []).foldl (fun p a => pushAliasEntry p a kv.1) acc.perAliasIndices }

/-- `loadAliases` (mappings.js:244-264): reset `perAliasIndices`, process
every index's aliases, then store the full index key list under the
reserved key `_all`. -/
def loadAliases (st : Store) (aliases : List (String × Option (List String))) : Store :=
  let st1 := aliases.foldl loadAliasesStep { st with perAliasIndices := [] }
  { st1 with
    perAliasIndices := setKey st1.perAliasIndices "_all" (getIndices st1 (some false)) }

/-- `clear` (mappings.js:266-270). -/
def clear (_st : Store) : Store := { perIndexTypes := [], perAliasIndices := [], templates := [] }

/-! ### The retrieve layer (source lines 272-358) -/

/-- The three-valued setting gate: strictly `true`, strictly `false`, or
anything else (unset, a string, ...). -/
inductive SettingVal : Type where
  | strue : SettingVal
  | sfalse : SettingVal
  | other : SettingVal
deriving DecidableEq, Repr

/-- Per-section settings object passed to a poll cycle. -/
structure SettingsToRetrieve where
  fields : SettingVal
  indices : SettingVal
  templates : SettingVal
deriving DecidableEq, Repr

/-- `retrieveSettings` (mappings.js:272-291), reduced to its observable
result.  `serverBody` is what the transport would deliver for this section.
`=== true`: the request resolves to a response whose `body` is the payload
(`some (some serverBody)`).  `=== false`: `Promise.resolve({})` — a response
object that has no `body` property (`some none`).  Anything else:
`Promise.resolve()` — the promise resolves to `undefined` (`none`), and the
caller's destructuring `const { body } = undefined` throws. -/
def retrieveSettings (setting : SettingVal) (serverBody : α) : Option (Option α) :=
  match setting with
  | .strue => some (some serverBody)
  | .sfalse => some none
  | .other => none

/-- `retrieveMappings` (mappings.js:310-332) as a store transformer.  A
`none` from `retrieveSettings` means the destructuring threw inside the
async function (the rejection is absorbed by `Promise.allSettled`): the
store is untouched.  A present response with an absent `body` fails the
`if (mappings)` guard: the store is untouched.  A present payload is loaded,
but a payload with more than `10 * 1024 * 1024` top-level keys is replaced
by the literal string `'\x7b\x7d'` before `loadMappings`. -/
def retrieveMappings (setting : SettingVal) (fetched : MappingsArg) (st : Store) : Store :=
  match retrieveSettings setting fetched with
  | none => st
  | some none => st
  | some (some mappings) =>
    if mappingsKeyCount mappings > 10 * 1024 * 1024 then
      loadMappings st (.jstr "\x7b\x7d")
    else
      loadMappings st mappings

/-- `retrieveAliases` (mappings.js:334-345) as a store transformer; same
settling behavior as `retrieveMappings`. -/
def retrieveAliases (setting : SettingVal) (fetched : List (String × Option (List String)))
    (st : Store) : Store :=
  match retrieveSettings setting fetched with
  | none => st
  | some none => st
  | some (some aliases) => loadAliases st aliases

/-- `retrieveTemplates` (mappings.js:347-358) as a store transformer. -/
def retrieveTemplates (setting : SettingVal) (fetched : List (String × Unit))
    (st : Store) : Store :=
  match retrieveSettings setting fetched with
  | none => st
  | some none => st
  | some (some templatesObject) => loadTemplates st templatesObject

/-- The store effect of one poll cycle of `retrieveAutoCompleteInfo`
(mappings.js:368-371) once all three fetches have settled, applied in one
settling order (mappings, aliases, templates).  The theorems below use it
only for settings under which each section's update is the identity, where
the order is irrelevant. -/
def runCycle (s : SettingsToRetrieve) (fm : MappingsArg)
    (fa : List (String × Option (List String))) (ft : List (String × Unit))
    (st : Store) : Store :=
  retrieveTemplates s.templates ft (retrieveAliases s.indices fa (retrieveMappings s.fields fm st))

/-! ### The polling timer (source lines 304-308 and 365-382)

An event-loop model of the timer bookkeeping.  `pending` is the list of
timer ids that have been scheduled by `setTimeout` and neither fired nor
been cancelled; `pollTimeoutId` is the module variable of the same name
(it keeps pointing at the last scheduled timer even after it fires —
`clearTimeout` on a fired id is a no-op); `inFlight` counts cycles whose
`Promise.allSettled` callback has not yet run; `nextId` feeds fresh timer
ids (browsers never reuse them). -/

structure PollState where
  pending : List Nat
  pollTimeoutId : Option Nat
  inFlight : Nat
  nextId : Nat
deriving DecidableEq, Repr

/-- `clearSubscriptions` (mappings.js:304-308): cancel the timer currently
referenced by `pollTimeoutId`, if any. -/
def clearSubscriptions (s : PollState) : PollState :=
  match s.pollTimeoutId with
  | none => s
  | some t => { s with pending := s.pending.filter (fun x => x ≠ t) }

/-- The synchronous prefix of `retrieveAutoCompleteInfo` (mappings.js:
365-371): cancel the pending timer, then start the three fetches of a new
cycle (one more in-flight `allSettled`). -/
def retrieveCall (s : PollState) : PollState :=
  let s := clearSubscriptions s
  { s with inFlight := s.inFlight + 1 }

/-- The `allSettled` continuation (mappings.js:372-381): schedule the next
cycle's timer and store its id in `pollTimeoutId`. -/
def settleCycle (s : PollState) : PollState :=
  { pending := s.pending ++ [s.nextId]
    pollTimeoutId := some s.nextId
    inFlight := s.inFlight - 1
    nextId := s.nextId + 1 }

/-- Event-loop steps: a caller invokes `retrieveAutoCompleteInfo`; an
in-flight cycle settles; a pending timer fires with polling off (callback
does nothing) or with polling on (callback re-invokes
`retrieveAutoCompleteInfo`). -/
inductive PollStep : PollState → PollState → Prop
  | call (s : PollState) : PollStep s (retrieveCall s)
  | settle (s : PollState) : 0 < s.inFlight → PollStep s (settleCycle s)
  | fireNoPoll (s : PollState) (t : Nat) : t ∈ s.pending →
      PollStep s { s with pending := s.pending.filter (fun x => x ≠ t) }
  | firePoll (s : PollState) (t : Nat) : t ∈ s.pending →
      PollStep s (retrieveCall { s with pending := s.pending.filter (fun x => x ≠ t) })

/-- States reachable from the initial module state (no timer, nothing in
flight). -/
inductive PollReachable : PollState → Prop
  | init : PollReachable ⟨[], none, 0, 1⟩
  | step {s s' : PollState} : PollReachable s → PollStep s s' → PollReachable s'

/-- The step relation restricted to non-overlapping cycles: every call of
`retrieveAutoCompleteInfo` — manual or timer-fired — happens only when no
cycle's fetches are still in flight. -/
inductive PollSeqStep : PollState → PollState → Prop
  | call (s : PollState) : s.inFlight = 0 → PollSeqStep s (retrieveCall s)
  | settle (s : PollState) : 0 < s.inFlight → PollSeqStep s (settleCycle s)
  | fireNoPoll (s : PollState) (t : Nat) : t ∈ s.pending →
      PollSeqStep s { s with pending := s.pending.filter (fun x => x ≠ t) }
  | firePoll (s : PollState) (t : Nat) : t ∈ s.pending → s.inFlight = 0 →
      PollSeqStep s (retrieveCall { s with pending := s.pending.filter (fun x => x ≠ t) })

/-- Reachability under non-overlapping cycles. -/
inductive PollSeqReachable : PollState → Prop
  | init : PollSeqReachable ⟨[], none, 0, 1⟩
  | step {s s' : PollState} : PollSeqReachable s → PollSeqStep s s' → PollSeqReachable s'

/-! ### Helper lemmas about the expansion pipeline -/

theorem flatten_map_singleton : ∀ (l : List String), (l.map (fun x => [x])).flatten = l := by
  intro l
  induction l with
  | nil => rfl
  | cons x xs ih => simp [ih]

theorem collapseResult_of_one_lt (l : List String) (h : 1 < l.length) :
    collapseResult l = .arr l := by
  match l with
  | [] => simp at h
  | [x] => simp at h
  | x :: y :: rest => rfl

theorem expandAliases_arr (pai : List (String × List String)) (xs : List String) :
    expandAliases pai (.arr xs) = collapseResult (expandedList pai xs) := rfl

theorem expandedList_sorted (pai : List (String × List String)) (xs : List String) :
    List.Sorted jsLe (expandedList pai xs) :=
  List.Pairwise.sublist (dedupAdjacent_sublist _)
    (List.sorted_insertionSort jsLe ((xs.map (substOne pai)).flatten))

theorem expandedList_nodup (pai : List (String × List String)) (xs : List String) :
    (expandedList pai xs).Nodup :=
  dedupAdjacent_nodup _ (List.sorted_insertionSort jsLe ((xs.map (substOne pai)).flatten))

theorem mem_expandedList (pai : List (String × List String)) (xs : List String) (a : String) :
    a ∈ expandedList pai xs ↔ a ∈ (xs.map (substOne pai)).flatten := by
  unfold expandedList
  rw [mem_dedupAdjacent _ (List.sorted_insertionSort jsLe _)]
  exact (List.perm_insertionSort jsLe _).mem_iff

/-- When a name is not an alias key, expanding it as a single string returns
it unchanged (this includes the empty string, which takes the falsy early
return). -/
theorem expandAliases_str_of_not_key (pai : List (String × List String)) (k : String)
    (h : lookupKey pai k = none) : expandAliases pai (.str k) = .str k := by
  by_cases hke : k = ""
  · subst hke; rfl
  · simp only [expandAliases, if_neg hke]
    have h2 : expandedList pai [k] = [k] := by
      unfold expandedList
      have h3 : (([k] : List String).map (substOne pai)).flatten = [k] := by
        simp [substOne, h]
      rw [h3, List.Sorted.insertionSort_eq (List.sorted_singleton k)]
      rfl
    rw [h2]
    rfl

/-! ### Claim C3 -/

/-- C3 counterexample: the empty list is truthy in JS, so it is not returned
unchanged — the pipeline runs, produces an empty result, and `ret[0]` is
`undefined`. -/
theorem c3_empty_list_counterexample :
    expandAliases [] (.arr []) = .undef ∧ JSVal.undef ≠ .arr [] := by
  exact ⟨rfl, by decide⟩

/-- C3 (amended): falsy inputs (`undefined`, the empty string) are returned
unchanged; the empty list is not falsy and yields `undefined`; for any list
input the pipeline result is sorted, duplicate-free and has the membership
of the substituted flattened list, and it is returned as a sequence when it
has more than one element and as a bare string when it has exactly one. -/
theorem c3_output_contract (pai : List (String × List String)) (xs : List String) :
    expandAliases pai .undef = .undef
    ∧ expandAliases pai (.str "") = .str ""
    ∧ expandAliases pai (.arr []) = .undef
    ∧ (List.Sorted jsLe (expandedList pai xs) ∧ (expandedList pai xs).Nodup
        ∧ ∀ a, a ∈ expandedList pai xs ↔ a ∈ (xs.map (substOne pai)).flatten)
    ∧ (1 < (expandedList pai xs).length →
        expandAliases pai (.arr xs) = .arr (expandedList pai xs))
    ∧ (∀ r, expandedList pai xs = [r] → expandAliases pai (.arr xs) = .str r) := by
  refine ⟨rfl, rfl, rfl,
    ⟨expandedList_sorted pai xs, expandedList_nodup pai xs, mem_expandedList pai xs⟩,
    fun h => ?_, fun r h => ?_⟩
  · rw [expandAliases_arr, collapseResult_of_one_lt _ h]
  · rw [expandAliases_arr, h]
    rfl

/-- Witness for `c3_output_contract` at a concrete alias map and input. -/
theorem c3_output_contract_witness :
    1 < (expandedList [("a1", ["i1", "i2"])] ["a1"]).length
    ∧ expandAliases [("a1", ["i1", "i2"])] (.arr ["a1"])
        = .arr (expandedList [("a1", ["i1", "i2"])] ["a1"]) ∧
    expandedList [("a1", ["i1"])] ["a1"] = ["i1"] ∧
    expandAliases [("a1", ["i1"])] (.arr ["a1"]) = .str "i1" :=
  ⟨by decide,
   (c3_output_contract [("a1", ["i1", "i2"])] ["a1"]).2.2.2.2.1 (by decide),
   by decide,
   (c3_output_contract [("a1", ["i1"])] ["a1"]).2.2.2.2.2 "i1" (by decide)⟩

/-! ### Claim C4 -/

/-- Properties object exhibiting two distinct (name, type) pairs whose
concatenated keys coincide: `("a:b", "c")` and `("a", "b:c")` both key to
`"a:b:c"`. -/
def c4Props : List (String × FieldMapping) :=
  [("a:b", .mk none none (some "c") none none none),
   ("a", .mk none none (some "b:c") none none none)]

/-- C4 counterexample: the dedup identity is the concatenated string
`name + ':' + type`, not the (name, type) pair — two distinct pairs whose
concatenations coincide are merged, so the second distinct pair is absent
from the output. -/
theorem c4_pair_identity_counterexample :
    getFieldNamesFromProperties c4Props = [{ name := "a:b", ftype := some "c" }]
    ∧ ({ name := "a", ftype := some "b:c" } : FieldDesc) ∈ fieldListOfProperties c4Props
    ∧ ({ name := "a", ftype := some "b:c" } : FieldDesc) ∉ getFieldNamesFromProperties c4Props
    ∧ ({ name := "a", ftype := some "b:c" } : FieldDesc) ≠ { name := "a:b", ftype := some "c" } := by
  refine ⟨by decide, by decide, by decide, by decide⟩

/-- C4 (amended): the flattened output of the normalizer deduplicates by the
key string `name ++ ":" ++ type` (which merges distinct (name, type) pairs
exactly when their key strings coincide): the output is a subsequence of the
pre-dedup list with pairwise distinct keys, every pre-dedup element's key is
represented, and each kept element is the first pre-dedup occurrence of its
key. -/
theorem c4_dedup_by_key_string (props : List (String × FieldMapping)) :
    (getFieldNamesFromProperties props).Sublist (fieldListOfProperties props)
    ∧ ((getFieldNamesFromProperties props).map fieldKey).Nodup
    ∧ (∀ f ∈ fieldListOfProperties props,
        ∃ g ∈ getFieldNamesFromProperties props, fieldKey g = fieldKey f)
    ∧ ∀ g ∈ getFieldNamesFromProperties props,
        ((fieldListOfProperties props).filter (fun f => fieldKey f = fieldKey g)).head?
          = some g := by
  refine ⟨uniqByKey_sublist fieldKey _ [], uniqByKey_keys_nodup fieldKey _ [],
    fun f hf => ?_, fun g hg => uniqByKey_first fieldKey _ [] g hg⟩
  exact uniqByKey_covers fieldKey _ [] f hf (by simp)

/-- Witness for `c4_dedup_by_key_string` at a concrete properties object. -/
theorem c4_dedup_by_key_string_witness :
    ∃ g ∈ getFieldNamesFromProperties [("x", .mk none none (some "t") none none none)],
      fieldKey g = fieldKey { name := "x", ftype := some "t" } :=
  (c4_dedup_by_key_string [("x", .mk none none (some "t") none none none)]).2.2.1
    { name := "x", ftype := some "t" } (by decide)

/-! ### Claim C5 -/

/-- C5 counterexample: a `path` that is present but the empty string is
falsy, so `fieldMapping.path || 'full'` still selects the `"full"` policy
and the nested name IS prefixed, contradicting the claim that any present
non-`"full"` path leaves nested names unprefixed. -/
theorem c5_empty_path_counterexample :
    getFieldNamesFromFieldMapping "user"
        (.mk none (some "") none none
          (some [("name", .mk none none (some "text") none none none)]) none)
      = [{ name := "user.name", ftype := some "text" }]
    ∧ [({ name := "user.name", ftype := some "text" } : FieldDesc)]
        ≠ [{ name := "name", ftype := some "text" }] := by
  refine ⟨by decide, by decide⟩

/-- The store of the C5 example:
`loadMappings({ idx: { properties: { user: { properties: { name: { type:
'text' } } } } } })`. -/
def c5ExampleStore : Store :=
  loadMappings ⟨[], [], []⟩ (.obj [("idx", [("properties",
    .props [("user", .mk none none none none
      (some [("name", .mk none none (some "text") none none none)]) none)])])])

/-- C5 (amended): the path policy prefixes nested names exactly when `path`
is absent, empty, or `"full"` (an empty-string path is falsy in JS and
behaves as absent); a descriptor with nested `properties` contributes the
path-policy image of the recursive normalization; and the spec's concrete
example holds. -/
theorem c5_path_policy :
    (∀ (path : Option String) (n : String) (nested : List FieldDesc),
      applyPathSettings path n nested =
        if path = none ∨ path = some "" ∨ path = some "full" then
          nested.map (fun f => { f with name := n ++ "." ++ f.name })
        else nested)
    ∧ (∀ (n : String) (e : Option Bool) (p t i : Option String)
        (props : List (String × FieldMapping)) (fl : Option (List (String × FieldMapping))),
        getFieldNamesFromFieldMapping n (.mk e p t i (some props) fl)
          = if e = some false then []
            else applyPathSettings p n (getFieldNamesFromProperties props))
    ∧ getFields 2 c5ExampleStore (.str "idx") .undef
        = [{ name := "user.name", ftype := some "text" }] := by
  refine ⟨fun path n nested => ?_, fun n e p t i props fl => rfl, by decide⟩
  match path with
  | none => rfl
  | some p =>
    by_cases hp : p = ""
    · subst hp
      simp [applyPathSettings]
    · by_cases hpf : p = "full"
      · subst hpf
        simp [applyPathSettings]
      · simp [applyPathSettings, hp, hpf]

/-! ### Claims C6 and C7 -/

/-- The alias-record invariant: no alias entry lists a target index equal to
the entry's own key. -/
def NoSelfAlias (pai : List (String × List String)) : Prop :=
  ∀ a l, lookupKey pai a = some l → a ∉ l

theorem noSelfAlias_pushAliasEntry (pai : List (String × List String))
    (aliasName index : String) (h : NoSelfAlias pai) :
    NoSelfAlias (pushAliasEntry pai aliasName index) := by
  unfold pushAliasEntry
  by_cases he : aliasName = index
  · rw [if_pos he]
    exact h
  · rw [if_neg he]
    cases hcur : lookupKey pai aliasName with
    | some cur =>
      intro a l hl
      by_cases ha : a = aliasName
      · subst ha
        rw [lookupKey_setKey_self] at hl
        cases hl
        intro hmem
        rcases List.mem_append.mp hmem with hm | hm
        · exact h a cur hcur hm
        · exact he (List.mem_singleton.mp hm)
      · rw [lookupKey_setKey_ne _ _ _ _ ha] at hl
        exact h a l hl
    | none =>
      intro a l hl
      cases hpai : lookupKey pai a with
      | some lx =>
        rw [lookupKey_append_left _ _ _ _ hpai] at hl
        cases hl
        exact h a _ hpai
      | none =>
        rw [lookupKey_append_right _ _ _ hpai] at hl
        by_cases ha : aliasName = a
        · simp [lookupKey, ha] at hl
          cases hl
          simpa using fun e => he (ha.trans e)
        · simp [lookupKey, ha] at hl

theorem noSelfAlias_pushFold (names : List String) :
    ∀ (pai : List (String × List String)) (index : String), NoSelfAlias pai →
      NoSelfAlias (names.foldl (fun p a => pushAliasEntry p a index) pai) := by
  induction names with
  | nil => intro pai index h; exact h
  | cons n ns ih =>
    intro pai index h
    exact ih _ index (noSelfAlias_pushAliasEntry pai n index h)

theorem noSelfAlias_loadAliasesFold (aliases : List (String × Option (List String))) :
    ∀ (acc : Store), NoSelfAlias acc.perAliasIndices →
      NoSelfAlias (aliases.foldl loadAliasesStep acc).perAliasIndices := by
  induction aliases with
  | nil => intro acc h; exact h
  | cons kv rest ih =>
    intro acc h
    exact ih _ (noSelfAlias_pushFold (kv.2.getD []) acc.perAliasIndices kv.1 h)

/-- C6: after any `loadAliases`, no alias entry other than the reserved
`_all` bookkeeping key lists its own name among its target indices — in
particular an alias declared with the same name as its index is never
recorded, so no entry `a → [... a ...]` exists. -/
theorem c6_no_self_alias (st : Store) (aliases : List (String × Option (List String)))
    (a : String) (l : List String) (ha : a ≠ "_all")
    (hl : lookupKey (loadAliases st aliases).perAliasIndices a = some l) : a ∉ l := by
  unfold loadAliases at hl
  simp only at hl
  rw [lookupKey_setKey_ne _ _ _ _ ha] at hl
  have hinv : NoSelfAlias (aliases.foldl loadAliasesStep
      { st with perAliasIndices := [] }).perAliasIndices := by
    apply noSelfAlias_loadAliasesFold
    intro a' l' hl'
    simp [lookupKey] at hl'
  exact hinv a l hl

/-- Witness for `c6_no_self_alias`: index `a` declares alias `a` (skipped)
and index `b` declares alias `a1`; the recorded entry `a1 → [b]` does not
contain `a1`, and no entry for `a` exists at all. -/
theorem c6_no_self_alias_witness :
    lookupKey (loadAliases ⟨[], [], []⟩
        [("a", some ["a"]), ("b", some ["a1"])]).perAliasIndices "a1" = some ["b"]
    ∧ "a1" ∉ (["b"] : List String)
    ∧ lookupKey (loadAliases ⟨[], [], []⟩
        [("a", some ["a"]), ("b", some ["a1"])]).perAliasIndices "a" = none :=
  ⟨by decide,
   c6_no_self_alias ⟨[], [], []⟩ [("a", some ["a"]), ("b", some ["a1"])] "a1" ["b"]
     (by decide) (by decide),
   by decide⟩

/-- C7: immediately after `loadAliases`, the reserved `_all` entry equals
the full index key list (`getIndices false` of the resulting store), and in
every store the alias-including index list is at least as long as the
alias-free one (it is the index key list with all alias keys appended). -/
theorem c7_all_key_and_indices_length (st : Store)
    (aliases : List (String × Option (List String))) :
    lookupKey (loadAliases st aliases).perAliasIndices "_all"
      = some (getIndices (loadAliases st aliases) (some false))
    ∧ ∀ st2 : Store, (getIndices st2 (some false)).length ≤ (getIndices st2 (some true)).length
    ∧ getIndices st2 (some true)
        = st2.perIndexTypes.map Prod.fst ++ st2.perAliasIndices.map Prod.fst := by
  constructor
  · unfold loadAliases
    simp only [lookupKey_setKey_self, getIndices]
  · intro st2
    constructor
    · simp [getIndices]
    · rfl

/-! ### Claim C8 -/

/-- C8 counterexample: with aliases `a → [b]` and `b → [c]` (reachable from
`loadAliases({b: {aliases: {a: {}}}, c: {aliases: {b: {}}}})` up to the
`_all` entry), the expansion of `["a","x"]` is the sorted deduplicated
multi-element list `["b","x"]`, but expanding that result again substitutes
`b` and yields `["c","x"]` — a different membership, so expansion is not
idempotent on its own output. -/
theorem c8_not_idempotent_counterexample :
    expandAliases [("a", ["b"]), ("b", ["c"])] (.arr ["a", "x"]) = .arr ["b", "x"]
    ∧ expandAliases [("a", ["b"]), ("b", ["c"])] (.arr ["b", "x"]) = .arr ["c", "x"]
    ∧ "b" ∈ (["b", "x"] : List String) ∧ "b" ∉ (["c", "x"] : List String) := by
  refine ⟨by decide, by decide, by decide, by decide⟩

/-- C8 (amended): expansion is idempotent on an already-expanded
multi-element list provided none of its elements is itself an alias key —
re-expanding returns the very same list.  (When an expansion result contains
a name that is also an alias key, re-expansion substitutes it again and
membership can change, as the counterexample shows.) -/
theorem c8_idempotent_on_nonalias (pai : List (String × List String)) (l : List String)
    (hsort : List.Sorted jsLe l) (hnd : l.Nodup) (hlen : 1 < l.length)
    (hkeys : ∀ x ∈ l, lookupKey pai x = none) :
    expandAliases pai (.arr l) = .arr l := by
  have hsub : l.map (substOne pai) = l.map (fun x => [x]) :=
    List.map_congr_left (fun x hx => by simp [substOne, hkeys x hx])
  have hexp : expandedList pai l = l := by
    unfold expandedList
    rw [hsub, flatten_map_singleton, List.Sorted.insertionSort_eq hsort,
      dedupAdjacent_eq_self l hnd]
  rw [expandAliases_arr, hexp, collapseResult_of_one_lt l hlen]

/-- Witness for `c8_idempotent_on_nonalias` at a concrete alias map and
list. -/
theorem c8_idempotent_on_nonalias_witness :
    1 < (["a", "b"] : List String).length
    ∧ expandAliases [("z", ["q"])] (.arr ["a", "b"]) = .arr ["a", "b"] :=
  ⟨by decide,
   c8_idempotent_on_nonalias [("z", ["q"])] ["a", "b"]
     (by decide) (by decide) (by decide) (by decide)⟩

/-! ### Composing `uniqBy` across nesting levels -/

theorem uniqByKey_inner_dedup (key : α → String) :
    ∀ (A : List α) (rest : List α) (seen s' : List String), (∀ k ∈ s', k ∈ seen) →
      uniqByKey key (uniqByKey key A s' ++ rest) seen = uniqByKey key (A ++ rest) seen := by
  intro A
  induction A with
  | nil => intro rest seen s' _; rfl
  | cons x A' ih =>
    intro rest seen s' hsub
    by_cases hxs : key x ∈ s'
    · rw [uniqByKey, if_pos hxs]
      rw [List.cons_append, uniqByKey, if_pos (hsub _ hxs)]
      exact ih rest seen s' hsub
    · rw [uniqByKey, if_neg hxs, List.cons_append, List.cons_append]
      by_cases hxseen : key x ∈ seen
      · rw [uniqByKey, if_pos hxseen, uniqByKey, if_pos hxseen]
        refine ih rest seen (key x :: s') ?_
        intro k hk
        rcases List.mem_cons.mp hk with h | h
        · exact h ▸ hxseen
        · exact hsub _ h
      · rw [uniqByKey, if_neg hxseen, uniqByKey, if_neg hxseen]
        refine congrArg (x :: ·) (ih rest (key x :: seen) (key x :: s') ?_)
        intro k hk
        rcases List.mem_cons.mp hk with h | h
        · exact h ▸ List.mem_cons_self _ _
        · exact List.mem_cons_of_mem _ (hsub _ h)

theorem uniqByKey_congr_append (key : α → String) :
    ∀ (pre X Y : List α),
      (∀ seen, uniqByKey key X seen = uniqByKey key Y seen) →
      ∀ seen, uniqByKey key (pre ++ X) seen = uniqByKey key (pre ++ Y) seen := by
  intro pre
  induction pre with
  | nil => intro X Y h seen; exact h seen
  | cons p pre' ih =>
    intro X Y h seen
    rw [List.cons_append, List.cons_append]
    by_cases hp : key p ∈ seen
    · rw [uniqByKey, if_pos hp, uniqByKey, if_pos hp]
      exact ih X Y h seen
    · rw [uniqByKey, if_neg hp, uniqByKey, if_neg hp]
      exact congrArg (p :: ·) (ih X Y h (key p :: seen))

/-- Deduplicating each nested contribution before the final dedup does not
change the final dedup's result — `uniqBy` of a flattened list absorbs
per-sublist `uniqBy`s. -/
theorem uniqByKey_flatten_dedup (key : α → String) (g : β → List α) :
    ∀ (l : List β) (seen : List String),
      uniqByKey key ((l.map (fun b => uniqByKey key (g b) [])).flatten) seen
        = uniqByKey key ((l.map g).flatten) seen := by
  intro l
  induction l with
  | nil => intro seen; rfl
  | cons b l' ih =>
    intro seen
    rw [List.map_cons, List.map_cons, List.flatten_cons, List.flatten_cons]
    rw [uniqByKey_inner_dedup key (g b) _ seen [] (by simp)]
    exact uniqByKey_congr_append key (g b) _ _ (fun s => ih s) seen

/-! ### Claim C10 -/

/-- The string branch of `getFields` for a name that is not an alias key:
expansion returns the name itself and its type map is read directly.  Valid
for any positive fuel — this branch does not recurse. -/
theorem getFields_str_branch (n : Nat) (st : Store) (k : String) (td : TypeDict)
    (types : JSVal) (hk : lookupKey st.perAliasIndices k = none)
    (htd : lookupKey st.perIndexTypes k = some td) :
    getFields (n + 1) st (.str k) types = uniqByKey fieldKey (typeDictFields td types) [] := by
  simp only [getFields]
  rw [expandAliases_str_of_not_key _ _ hk]
  simp only [htd]

/-- A store where an index key is also an alias key: index `a` has a field,
but the alias entry `a → [b]` shadows it.  (Reachable:
`loadMappings({a: ..., b: ...})` then `loadAliases({b: {aliases: {a: {}}}})`
up to the `_all` entry.) -/
def c10ShadowStore : Store :=
  { perIndexTypes := [("a", [("t", [{ name := "f", ftype := some "text" }])]), ("b", [])],
    perAliasIndices := [("a", ["b"])], templates := [] }

/-- C10 counterexample: with an index name that is also an alias key,
`getFields([])` is NOT the deduplicated concatenation of the field lists of
every index key — the per-index recursion re-expands `a` into `b` and
index `a`'s own fields are lost. -/
theorem c10_alias_shadow_counterexample :
    getFields 2 c10ShadowStore (.arr []) .undef = []
    ∧ uniqByKey fieldKey
        ((c10ShadowStore.perIndexTypes.map (fun kv => typeDictFields kv.2 .undef)).flatten) []
      = [{ name := "f", ftype := some "text" }]
    ∧ ([] : List FieldDesc) ≠ [{ name := "f", ftype := some "text" }] := by
  refine ⟨by decide, by decide, by decide⟩

/-- C10 (amended): the empty list behaves as "all" in the sense that
expanding it yields `undefined` (not the empty list) and the lookups treat
it exactly like an `undefined` argument; moreover, when no index key is
shadowed by an alias key (and index keys are unique, as JS objects
guarantee), `getFields([])` is indeed the deduplicated concatenation of
every index's included field lists. -/
theorem c10_empty_list_means_all (fuel : Nat) (st : Store) (types : JSVal) :
    expandAliases st.perAliasIndices (.arr []) = .undef
    ∧ getFields fuel st (.arr []) types = getFields fuel st .undef types
    ∧ getTypes fuel st (.arr []) = getTypes fuel st .undef
    ∧ ∀ n : Nat, (st.perIndexTypes.map Prod.fst).Nodup →
        (∀ k ∈ st.perIndexTypes.map Prod.fst, lookupKey st.perAliasIndices k = none) →
        getFields (n + 2) st (.arr []) types
          = uniqByKey fieldKey
              ((st.perIndexTypes.map (fun kv => typeDictFields kv.2 types)).flatten) [] := by
  refine ⟨rfl, ?_, ?_, ?_⟩
  · cases fuel with
    | zero => rfl
    | succ m => rfl
  · cases fuel with
    | zero => rfl
    | succ m => rfl
  · intro n hnd hkeys
    have hpoint : ∀ kv ∈ st.perIndexTypes,
        getFields (n + 1) st (.str kv.1) types
          = uniqByKey fieldKey (typeDictFields kv.2 types) [] := by
      intro kv hkv
      have hk : lookupKey st.perAliasIndices kv.1 = none :=
        hkeys kv.1 (List.mem_map.mpr ⟨kv, hkv, rfl⟩)
      have htd : lookupKey st.perIndexTypes kv.1 = some kv.2 :=
        lookupKey_of_mem_nodup _ _ _ hkv hnd
      exact getFields_str_branch n st kv.1 kv.2 types hk htd
    calc getFields (n + 2) st (.arr []) types
        = uniqByKey fieldKey
            ((st.perIndexTypes.map
              (fun kv => getFields (n + 1) st (.str kv.1) types)).flatten) [] := by
          rw [show getFields (n + 2) st (.arr []) types
              = uniqByKey fieldKey
                ((st.perIndexTypes.filterMap (fun kv =>
                  if indexIncluded .undef kv.1 then
                    some (getFields (n + 1) st (.str kv.1) types)
                  else none)).flatten) [] from rfl]
          rw [show (fun (kv : String × TypeDict) =>
                if indexIncluded JSVal.undef kv.1 then
                  some (getFields (n + 1) st (JSVal.str kv.1) types)
                else none)
              = (some ∘ fun (kv : String × TypeDict) =>
                  getFields (n + 1) st (JSVal.str kv.1) types) from rfl]
          rw [List.filterMap_eq_map]
      _ = uniqByKey fieldKey
            ((st.perIndexTypes.map
              (fun kv => uniqByKey fieldKey (typeDictFields kv.2 types) [])).flatten) [] := by
          rw [List.map_congr_left hpoint]
      _ = uniqByKey fieldKey
            ((st.perIndexTypes.map (fun kv => typeDictFields kv.2 types)).flatten) [] :=
          uniqByKey_flatten_dedup fieldKey _ st.perIndexTypes []

/-- Witness for `c10_empty_list_means_all` at a concrete unshadowed store. -/
theorem c10_empty_list_means_all_witness :
    ((Store.mk [("i", [("t", [{ name := "f", ftype := some "x" }])])] [] []).perIndexTypes.map
        Prod.fst).Nodup
    ∧ getFields 2 (Store.mk [("i", [("t", [{ name := "f", ftype := some "x" }])])] [] [])
        (.arr []) .undef
      = uniqByKey fieldKey
          (((Store.mk [("i", [("t", [{ name := "f", ftype := some "x" }])])] [] []).perIndexTypes.map
            (fun kv => typeDictFields kv.2 .undef)).flatten) [] :=
  ⟨by decide,
   (c10_empty_list_means_all 0
      (Store.mk [("i", [("t", [{ name := "f", ftype := some "x" }])])] [] []) .undef).2.2.2 0
     (by decide) (by decide)⟩

/-! ### Claim C1 -/

/-- A populated store used to exercise the settings gate. -/
def c1Store : Store :=
  ⟨[("i", [("t", [{ name := "f", ftype := some "long" }])])], [("al", ["i"])], ["tmpl"]⟩

/-- C1 evaluated at the failing input: with every section's setting exactly
`false`, the cycle leaves every section of a populated store UNCHANGED —
nothing is cleared, because `retrieveSettings` resolves `{}` whose
destructured `body` is `undefined`, so `if (mappings)` (resp. aliases,
templates) fails and no `load*` runs.  The claim (and the source's own
comments, mappings.js:284 and 287) say the sections should be cleared to
empty.  The `other`-valued settings do skip and retain, as claimed. -/
theorem c1_false_setting_does_not_clear :
    runCycle ⟨.sfalse, .sfalse, .sfalse⟩ (.obj []) [] [] c1Store = c1Store
    ∧ runCycle ⟨.other, .other, .other⟩ (.obj []) [] [] c1Store = c1Store
    ∧ c1Store.perIndexTypes ≠ [] ∧ c1Store.perAliasIndices ≠ [] ∧ c1Store.templates ≠ [] := by
  refine ⟨rfl, rfl, by decide, by decide, by decide⟩

/-! ### Claim C2 -/

/-- C2 evaluated on the oversized branch: for any payload with more than
`10 * 1024 * 1024` top-level keys, `retrieveMappings` ends up calling
`loadMappings` on the two-character string `'\x7b\x7d'` (not on an empty
object), and the resulting `perIndexTypes` is
`{"0": {"0": []}, "1": {"0": []}}` — NOT the empty map that loading an
empty mappings object produces. -/
theorem c2_oversized_not_empty (st : Store) (m : MappingsArg)
    (h : 10 * 1024 * 1024 < mappingsKeyCount m) :
    (retrieveMappings .strue m st).perIndexTypes
      = [("0", [("0", [])]), ("1", [("0", [])])]
    ∧ (loadMappings st (.obj [])).perIndexTypes = []
    ∧ ([("0", [("0", [])]), ("1", [("0", [])])] : List (String × TypeDict)) ≠ [] := by
  refine ⟨?_, rfl, by decide⟩
  simp only [retrieveMappings, retrieveSettings]
  rw [if_pos h]
  show (List.range ("\x7b\x7d".length)).map (fun i => (toString i, ([("0", [])] : TypeDict)))
    = [("0", [("0", [])]), ("1", [("0", [])])]
  decide

/-- A payload exceeding the key-count cap (its key list is never evaluated
element by element: the length is computed by `List.length_replicate`). -/
def c2BigPayload : MappingsArg :=
  .obj (List.replicate (10 * 1024 * 1024 + 1) ("k", []))

/-- Witness for `c2_oversized_not_empty` at a concrete oversized payload. -/
theorem c2_oversized_not_empty_witness :
    10 * 1024 * 1024 < mappingsKeyCount c2BigPayload
    ∧ (retrieveMappings .strue c2BigPayload ⟨[], [], []⟩).perIndexTypes
        = [("0", [("0", [])]), ("1", [("0", [])])] := by
  have h : 10 * 1024 * 1024 < mappingsKeyCount c2BigPayload := by
    show 10 * 1024 * 1024 < (List.replicate (10 * 1024 * 1024 + 1) ("k", ([] : List (String × TypeVal)))).length
    rw [List.length_replicate]
    omega
  exact ⟨h, (c2_oversized_not_empty ⟨[], [], []⟩ c2BigPayload h).1⟩

/-! ### Claim C9 -/

/-- C9 counterexample: two calls in quick succession — both entering before
either cycle's fetches settle — leave TWO timers pending once both
`allSettled` callbacks have run.  The second call's `clearSubscriptions`
ran while `pollTimeoutId` was still unset, so it cancelled nothing, and the
first cycle's timer handle is then overwritten.  The state
`⟨[1, 2], some 2, 0, 3⟩` is reachable and has two pending timers. -/
theorem c9_two_pending_timers_counterexample :
    PollReachable ⟨[1, 2], some 2, 0, 3⟩
    ∧ (PollState.pending ⟨[1, 2], some 2, 0, 3⟩).length = 2 := by
  constructor
  · have h0 : PollReachable ⟨[], none, 0, 1⟩ := .init
    have h1 : PollReachable ⟨[], none, 1, 1⟩ := .step h0 (PollStep.call _)
    have h2 : PollReachable ⟨[], none, 2, 1⟩ := .step h1 (PollStep.call _)
    have h3 : PollReachable ⟨[1], some 1, 1, 2⟩ := .step h2 (PollStep.settle _ (by decide))
    exact .step h3 (PollStep.settle _ (by decide))
  · rfl

/-- The inductive invariant of the sequential poller: at most one unit of
"work" exists (a pending timer or an in-flight cycle), and any pending
timer is the one `pollTimeoutId` references. -/
def PollInv (s : PollState) : Prop :=
  s.pending.length + s.inFlight ≤ 1 ∧ ∀ t ∈ s.pending, s.pollTimeoutId = some t

theorem mem_of_length_le_one {t : Nat} {l : List Nat} (hlen : l.length ≤ 1) (ht : t ∈ l) :
    l = [t] := by
  match l with
  | [] => simp at ht
  | [x] =>
    rcases List.mem_singleton.mp ht with rfl
    rfl
  | x :: y :: rest => simp at hlen

theorem clearSubscriptions_inFlight (s : PollState) :
    (clearSubscriptions s).inFlight = s.inFlight := by
  unfold clearSubscriptions
  cases s.pollTimeoutId <;> rfl

/-- Under the invariant, cancelling the referenced timer always empties the
pending list: either nothing is pending, or the single pending timer is the
referenced one. -/
theorem clearSubscriptions_pending_nil (s : PollState) (h : PollInv s) :
    (clearSubscriptions s).pending = [] := by
  cases hp : s.pending with
  | nil =>
    unfold clearSubscriptions
    cases s.pollTimeoutId with
    | none => exact hp
    | some u =>
      simp only
      rw [hp]
      rfl
  | cons t rest =>
    have hone : s.pending = [t] := by
      refine mem_of_length_le_one ?_ (by rw [hp]; exact List.mem_cons_self _ _)
      have h1 := h.1
      omega
    have hpt : s.pollTimeoutId = some t :=
      h.2 t (by rw [hp]; exact List.mem_cons_self _ _)
    unfold clearSubscriptions
    rw [hpt]
    simp only
    rw [hone]
    simp

theorem pollInv_retrieveCall (s : PollState) (h : PollInv s) (h0 : s.inFlight = 0) :
    PollInv (retrieveCall s) := by
  have hnil := clearSubscriptions_pending_nil s h
  constructor
  · show (clearSubscriptions s).pending.length + ((clearSubscriptions s).inFlight + 1) ≤ 1
    rw [hnil, clearSubscriptions_inFlight, h0]
    simp
  · intro t ht
    rw [show (retrieveCall s).pending = (clearSubscriptions s).pending from rfl, hnil] at ht
    simp at ht

theorem pollInv_step {s s' : PollState} (hinv : PollInv s) (hstep : PollSeqStep s s') :
    PollInv s' := by
  cases hstep with
  | call h0 => exact pollInv_retrieveCall s hinv h0
  | settle h0 =>
    have hpend : s.pending = [] := by
      cases hp : s.pending with
      | nil => rfl
      | cons t rest =>
        exfalso
        have h1 := hinv.1
        rw [hp] at h1
        simp only [List.length_cons] at h1
        omega
    have hif : s.inFlight = 1 := by
      have h1 := hinv.1
      rw [hpend] at h1
      simp only [List.length_nil] at h1
      omega
    constructor
    · show (s.pending ++ [s.nextId]).length + (s.inFlight - 1) ≤ 1
      rw [hpend, hif]
      simp
    · intro t ht
      rw [show (settleCycle s).pending = s.pending ++ [s.nextId] from rfl, hpend] at ht
      simp only [List.nil_append] at ht
      rcases List.mem_singleton.mp ht with rfl
      rfl
  | fireNoPoll t ht =>
    have hp : s.pending = [t] := by
      refine mem_of_length_le_one ?_ ht
      have h1 := hinv.1
      omega
    have hfil : s.pending.filter (fun x => x ≠ t) = [] := by
      rw [hp]
      simp
    constructor
    · show (s.pending.filter (fun x => x ≠ t)).length + s.inFlight ≤ 1
      rw [hfil]
      have h1 := hinv.1
      simp only [List.length_nil]
      omega
    · intro u hu
      rw [show ({ s with pending := s.pending.filter (fun x => x ≠ t) } : PollState).pending
          = s.pending.filter (fun x => x ≠ t) from rfl, hfil] at hu
      simp at hu
  | firePoll t ht h0 =>
    have hp : s.pending = [t] := by
      refine mem_of_length_le_one ?_ ht
      have h1 := hinv.1
      omega
    have hfil : s.pending.filter (fun x => x ≠ t) = [] := by
      rw [hp]
      simp
    have hmid : PollInv { s with pending := s.pending.filter (fun x => x ≠ t) } := by
      constructor
      · show (s.pending.filter (fun x => x ≠ t)).length + s.inFlight ≤ 1
        rw [hfil, h0]
        simp
      · intro u hu
        rw [show ({ s with pending := s.pending.filter (fun x => x ≠ t) } : PollState).pending
            = s.pending.filter (fun x => x ≠ t) from rfl, hfil] at hu
        simp at hu
    exact pollInv_retrieveCall _ hmid h0

theorem pollInv_of_seqReachable (s : PollState) (h : PollSeqReachable s) : PollInv s := by
  induction h with
  | init => exact ⟨by simp, by intro t ht; simp at ht⟩
  | step _ hstep ih => exact pollInv_step ih hstep

/-- C9 (amended): under non-overlapping cycles — every call of
`retrieveAutoCompleteInfo`, manual or timer-fired, happens only when no
cycle's fetches are in flight — at most one timer is pending in every
reachable state.  (With overlapping in-flight cycles the bound fails, as the
counterexample shows: the second call's cancellation runs before the first
cycle schedules its timer.) -/
theorem c9_single_pending_timer_sequential (s : PollState) (h : PollSeqReachable s) :
    s.pending.length ≤ 1 := by
  have := pollInv_of_seqReachable s h
  have h1 := this.1
  omega

/-- Witness for `c9_single_pending_timer_sequential` at a concrete reachable
state (one call, then its cycle settles and schedules timer 1). -/
theorem c9_single_pending_timer_sequential_witness :
    PollSeqReachable ⟨[1], some 1, 0, 2⟩
    ∧ (PollState.pending ⟨[1], some 1, 0, 2⟩).length ≤ 1 := by
  have h0 : PollSeqReachable ⟨[], none, 0, 1⟩ := .init
  have h1 : PollSeqReachable ⟨[], none, 1, 1⟩ := .step h0 (PollSeqStep.call _ rfl)
  have h2 : PollSeqReachable ⟨[1], some 1, 0, 2⟩ := .step h1 (PollSeqStep.settle _ (by decide))
  exact ⟨h2, c9_single_pending_timer_sequential _ h2⟩
